import Mathlib

/-!
Shallow embedding of the SolanaTradeMaster bot (`app.py`) and proofs about it.

Bytes are modelled as `List Nat` with values `< 256` where it matters.
The external `cryptography.fernet.Fernet` library is modelled structurally
(token framing, CBC mode, PKCS7 padding, HMAC check, urlsafe base64) with the
AES-128 block permutation and the HMAC-SHA256 function as parameters, since
those primitives live outside the repository.  Python's `base64` module is
modelled including its default non-strict behaviour of discarding characters
outside the alphabet before decoding.
-/

namespace App

/-! ## Base64 (Python `base64.b64decode` / Fernet's urlsafe variant) -/

/-- Character (ASCII code) of a base64 sextet.  `urlsafe = true` uses `-`/`_`
for values 62/63 (Fernet), `false` uses `+`/`/` (standard `base64.b64decode`). -/
def sextet_char (urlsafe : Bool) (s : Nat) : Nat :=
  if s < 26 then 65 + s
  else if s < 52 then 97 + (s - 26)
  else if s < 62 then 48 + (s - 52)
  else if s = 62 then (if urlsafe then 45 else 43)
  else (if urlsafe then 95 else 47)

/-- Inverse alphabet lookup: the sextet value of an ASCII code, `none` when the
character is outside the alphabet (`=` included). -/
def char_sextet (urlsafe : Bool) (c : Nat) : Option Nat :=
  if 65 ≤ c ∧ c ≤ 90 then some (c - 65)
  else if 97 ≤ c ∧ c ≤ 122 then some (c - 71)
  else if 48 ≤ c ∧ c ≤ 57 then some (c + 4)
  else if c = (if urlsafe then 45 else 43) then some 62
  else if c = (if urlsafe then 95 else 47) then some 63
  else none

/-- Base64 encoding of a byte list, as ASCII codes (61 is `=` padding). -/
def b64encode (u : Bool) : List Nat → List Nat
  | a :: b :: c :: rest =>
      sextet_char u (a / 4) :: sextet_char u (a % 4 * 16 + b / 16) ::
      sextet_char u (b % 16 * 4 + c / 64) :: sextet_char u (c % 64) ::
      b64encode u rest
  | [a] => [sextet_char u (a / 4), sextet_char u (a % 4 * 16), 61, 61]
  | [a, b] =>
      [sextet_char u (a / 4), sextet_char u (a % 4 * 16 + b / 16),
       sextet_char u (b % 16 * 4), 61]
  | [] => []

/-- Strict base64 decoding of a list of ASCII codes already filtered to the
alphabet: groups of four characters, `=` padding only in the final group. -/
def b64decode_strict (u : Bool) : List Nat → Option (List Nat)
  | [] => some []
  | c1 :: c2 :: c3 :: c4 :: rest =>
      match char_sextet u c1, char_sextet u c2 with
      | some s1, some s2 =>
        if c3 = 61 then
          if c4 = 61 ∧ rest = [] then some [s1 * 4 + s2 / 16] else none
        else
          match char_sextet u c3 with
          | some s3 =>
            if c4 = 61 then
              if rest = [] then some [s1 * 4 + s2 / 16, s2 % 16 * 16 + s3 / 4]
              else none
            else
              match char_sextet u c4 with
              | some s4 =>
                  (b64decode_strict u rest).map
                    (fun t => (s1 * 4 + s2 / 16) :: (s2 % 16 * 16 + s3 / 4) ::
                              (s3 % 4 * 64 + s4) :: t)
              | none => none
          | none => none
      | _, _ => none
  | _ => none

/-- Does Python's non-strict decoder keep this character?  (Alphabet characters
and `=`; everything else is discarded before decoding.) -/
def b64_keep (u : Bool) (c : Nat) : Bool := (char_sextet u c).isSome || c = 61

/-- Python `base64.b64decode` with default `validate=False`: characters outside
the alphabet are discarded, then the rest is decoded in groups of four. -/
def b64decode (u : Bool) (cs : List Nat) : Option (List Nat) :=
  b64decode_strict u (cs.filter (b64_keep u))

/-! ## PKCS7 padding, CBC mode and 16-byte chunking (Fernet's cipher layer) -/

/-- PKCS7 padding to 16-byte blocks: append `p` copies of `p` where
`p = 16 - len % 16` (always between 1 and 16). -/
def pkcs7_pad (data : List Nat) : List Nat :=
  let p := 16 - data.length % 16
  data ++ List.replicate p p

/-- PKCS7 unpadding: read the final byte `p`, check `1 ≤ p ≤ 16` and that the
last `p` bytes all equal `p`, then strip them; `none` on invalid padding. -/
def pkcs7_unpad (data : List Nat) : Option (List Nat) :=
  match data.getLast? with
  | none => none
  | some p =>
    if 1 ≤ p ∧ p ≤ 16 ∧ p ≤ data.length ∧
        (data.drop (data.length - p)).all (fun x => x = p) then
      some (data.take (data.length - p))
    else none

/-- Bytewise xor of two equal-length byte lists. -/
def xor_bytes (a b : List Nat) : List Nat := List.zipWith (fun x y => x ^^^ y) a b

/-- CBC-mode encryption over a list of 16-byte blocks with block cipher `E`. -/
def cbc_encrypt (E : List Nat → List Nat) (iv : List Nat) :
    List (List Nat) → List (List Nat)
  | [] => []
  | p :: ps => let c := E (xor_bytes iv p); c :: cbc_encrypt E c ps

/-- CBC-mode decryption over a list of 16-byte blocks with inverse cipher `D`. -/
def cbc_decrypt (D : List Nat → List Nat) (iv : List Nat) :
    List (List Nat) → List (List Nat)
  | [] => []
  | c :: cs => xor_bytes iv (D c) :: cbc_decrypt D c cs

/-- Fuel-driven splitting of a byte list into 16-byte chunks (structural in the
fuel so that it evaluates by `decide`). -/
def chunk_fuel : Nat → List Nat → List (List Nat)
  | _, [] => []
  | 0, _ :: _ => []
  | n + 1, l@(_ :: _) => l.take 16 :: chunk_fuel n (l.drop 16)

/-- Split a byte list into 16-byte chunks. -/
def chunk16 (l : List Nat) : List (List Nat) := chunk_fuel l.length l

/-! ## Fernet (model of `cryptography.fernet.Fernet` used by `SecurityManager`) -/

/-- Primitives of the Fernet construction that live outside the repository: the
AES-128 block permutation (encryption and decryption directions, keyed by the
master key's encryption half) and HMAC-SHA256 keyed by the signing half. -/
structure FernetParams where
  aesEnc : List Nat → List Nat
  aesDec : List Nat → List Nat
  hmac : List Nat → List Nat

/-- Contract of a valid master key's primitives: the block cipher is a
length-and-range-preserving permutation on 16-byte blocks and the MAC produces
32 bytes. -/
def GoodParams (P : FernetParams) : Prop :=
  (∀ b : List Nat, b.length = 16 → P.aesDec (P.aesEnc b) = b) ∧
  (∀ b : List Nat, b.length = 16 → (P.aesEnc b).length = 16) ∧
  (∀ b : List Nat, b.length = 16 → (∀ x ∈ b, x < 256) → ∀ x ∈ P.aesEnc b, x < 256) ∧
  (∀ m : List Nat, (P.hmac m).length = 32) ∧
  (∀ m : List Nat, ∀ x ∈ P.hmac m, x < 256)

/-- Raw Fernet token: version byte `0x80`, 8-byte timestamp, 16-byte IV,
CBC ciphertext of the PKCS7-padded plaintext, then HMAC over all of that. -/
def fernet_token (P : FernetParams) (ts iv data : List Nat) : List Nat :=
  let ct := (cbc_encrypt P.aesEnc iv (chunk16 (pkcs7_pad data))).flatten
  let body := 128 :: (ts ++ iv ++ ct)
  body ++ P.hmac body

/-- Fernet encryption: the raw token, urlsafe-base64 encoded. -/
def fernet_encrypt (P : FernetParams) (ts iv data : List Nat) : List Nat :=
  b64encode true (fernet_token P ts iv data)

/-- Fernet decryption: urlsafe-base64 decode, check the version byte, the
minimum length, the HMAC tag and the ciphertext block alignment, then CBC
decrypt and strip PKCS7 padding.  `none` models a raised `InvalidToken`
(the `CryptoError` of the specification). -/
def fernet_decrypt (P : FernetParams) (token : List Nat) : Option (List Nat) :=
  match b64decode true token with
  | none => none
  | some dat =>
    match dat with
    | [] => none
    | v :: rest =>
      if v = 128 then
        if 56 ≤ rest.length then
          let tag := (v :: rest).drop ((v :: rest).length - 32)
          let body := (v :: rest).take ((v :: rest).length - 32)
          if tag = P.hmac body then
            let iv := (rest.drop 8).take 16
            let ct := (rest.drop 24).take (rest.length - 56)
            if ct.length % 16 = 0 then
              pkcs7_unpad (cbc_decrypt P.aesDec iv (chunk16 ct)).flatten
            else none
          else none
        else none
      else none

/-! ## `SecurityManager` (`app.py` lines 17–27) -/

/-- Embedding of `SecurityManager.encrypt_private_key`: `fernet.encrypt(pk)`
followed by `.decode()`, modelled as the ASCII codes of the token string.
`ts` and `iv` are the encryption-time timestamp and random IV that the real
library draws from the clock and the CSPRNG. -/
def encrypt_private_key (P : FernetParams) (ts iv private_key : List Nat) : List Nat :=
  fernet_encrypt P ts iv private_key

/-- Embedding of `SecurityManager.decrypt_private_key`: `.encode()` then
`fernet.decrypt`; returns the plaintext bytes, `none` models `InvalidToken`. -/
def decrypt_private_key (P : FernetParams) (encrypted_key : List Nat) : Option (List Nat) :=
  fernet_decrypt P encrypted_key

/-- Concrete Fernet primitives used for witnesses: the identity permutation as
the block cipher and a constant MAC. -/
def P₀ : FernetParams :=
  { aesEnc := fun b => b
    aesDec := fun b => b
    hmac := fun _ => List.replicate 32 9 }

/-- Concrete encryption-time timestamp for witnesses. -/
def ts₀ : List Nat := List.replicate 8 0

/-- Concrete encryption-time IV for witnesses. -/
def iv₀ : List Nat := List.replicate 16 0

/-! ## `TokenManager` (`app.py` lines 29–59) -/

/-- Redis hash of one token as read back by `hgetall`: the fields the code
uses, each optional to model `dict.get` with its default.  The numeric
`value` field is modelled as the rational the stored decimal denotes. -/
structure Token where
  symbol : Option String
  value : Option ℚ
  purchase_date : Option String
deriving DecidableEq

/-- Sort key of `float(x.get('value', 0))`. -/
def value_key (t : Token) : ℚ := t.value.getD 0

/-- Sort key of `x.get('purchase_date', '')`. -/
def date_key (t : Token) : String := t.purchase_date.getD ""

/-- Descending-by-value relation used by `tokens.sort(key=..., reverse=True)`;
ties keep store order, which a stable sort with this relation preserves. -/
def value_ge (a b : Token) : Prop := value_key b ≤ value_key a

/-- Descending-by-purchase-date relation for `sort_by == 'date'`. -/
def date_ge (a b : Token) : Prop := date_key b ≤ date_key a

instance : DecidableRel value_ge := fun a b =>
  inferInstanceAs (Decidable (value_key b ≤ value_key a))

instance : DecidableRel date_ge := fun a b =>
  inferInstanceAs (Decidable (date_key b ≤ date_key a))

instance : IsTotal Token value_ge := ⟨fun a b => le_total (value_key b) (value_key a)⟩

instance : IsTrans Token value_ge := ⟨fun _ _ _ hab hbc => le_trans hbc hab⟩

instance : IsTotal Token date_ge := ⟨fun a b => le_total (date_key b) (date_key a)⟩

instance : IsTrans Token date_ge := ⟨fun _ _ _ hab hbc => le_trans hbc hab⟩

/-- The Redis keyspace: full key string paired with the stored token hash. -/
def RedisStore := List (String × Token)

/-- Embedding of `redis.keys(f"tokens:{wallet_id}:*")` followed by `hgetall`
on each key: the tokens whose key matches the wallet's pattern, in store
order. -/
def wallet_tokens (store : RedisStore) (wallet_id : String) : List Token :=
  (List.filter
      (fun kv =>
        ("tokens:".data ++ wallet_id.data ++ ":".data).isPrefixOf kv.1.data)
      store).map Prod.snd

/-- Embedding of `TokenManager.get_tokens`: fetch the wallet's tokens, sort
them descending by value when `sort_by == 'value'`, descending by purchase
date when `sort_by == 'date'`, otherwise leave store order, then return the
Python slice `tokens[start:end]` with `start = (page-1)*20`, `end = start+20`.
Faithful for `page ≥ 1` (the only pages the claim covers). -/
def get_tokens (store : RedisStore) (wallet_id : String) (page : Nat)
    (sort_by : String) : List Token :=
  let tokens_per_page := 20
  let start := (page - 1) * tokens_per_page
  let stop := start + tokens_per_page
  let tokens := wallet_tokens store wallet_id
  let tokens :=
    if sort_by = "value" then List.insertionSort value_ge tokens
    else if sort_by = "date" then List.insertionSort date_ge tokens
    else tokens
  (tokens.take stop).drop start

/-! ## `TradingManager` (`app.py` lines 61–94) -/

/-- Python exceptions that the embedded code can raise; an `Except.error`
value models an exception propagating out of the function uncaught. -/
inductive PyErr where
  | nameError (n : String)
  | keyError (k : String)
  | valueError (s : String)
  | indexError
  | clientError (msg : String)
  | binasciiError
  | rpcError (msg : String)
deriving DecidableEq

instance {ε α : Type} [DecidableEq ε] [DecidableEq α] : DecidableEq (Except ε α)
  | Except.ok a, Except.ok b =>
      if h : a = b then isTrue (by rw [h])
      else isFalse (by intro he; cases he; exact h rfl)
  | Except.error a, Except.error b =>
      if h : a = b then isTrue (by rw [h])
      else isFalse (by intro he; cases he; exact h rfl)
  | Except.ok _, Except.error _ => isFalse (by intro h; cases h)
  | Except.error _, Except.ok _ => isFalse (by intro h; cases h)

/-- Solana keypair as the code passes it around: `execute_trade` receives the
secret key already in plaintext. -/
structure Keypair where
  public_key : List Nat
  secret_key : List Nat
deriving DecidableEq

/-- Deserialized Solana transaction: `recent_block_age` is the age of its
embedded chain-state anchor (recent blockhash), which the code never reads;
`body` is the rest of the wire payload, opaque to this core. -/
structure SolTransaction where
  recent_block_age : Nat
  body : List Nat
deriving DecidableEq

/-- Result of `wallet.sign_transaction(transaction)`. -/
structure SignedTransaction where
  transaction : SolTransaction
  signer : List Nat
deriving DecidableEq

/-- Embedding of `wallet.sign_transaction`: attaches the wallet's signature
(identified by its public key) to the transaction. -/
def sign_transaction (wallet : Keypair) (t : SolTransaction) : SignedTransaction :=
  ⟨t, wallet.public_key⟩

/-- Top-level names bound in the module (`import` lines 1–15 plus the module's
own classes and globals).  `random` is referenced by `execute_trade` but is
not among them. -/
def module_global_names : List String :=
  ["asyncio", "base64", "json", "Dict", "List", "Optional", "datetime",
   "aiohttp", "Fernet", "AsyncClient", "Keypair", "Transaction",
   "TransactionInstruction", "Update", "InlineKeyboardButton",
   "InlineKeyboardMarkup", "Application", "CommandHandler", "CallbackContext",
   "CallbackQueryHandler", "Redis", "SecurityManager", "TokenManager",
   "TradingManager", "SolanaTelegramBot", "config", "redis_client",
   "security_manager", "token_manager", "trading_manager", "bot"]

/-- Python global-name resolution: `NameError` when the name is not bound. -/
def py_name (n : String) : Except PyErr Unit :=
  if n ∈ module_global_names then Except.ok () else Except.error (PyErr.nameError n)

/-- Python `d[k]` on a JSON object: `KeyError` when the field is absent. -/
def py_dict_get (d : List (String × String)) (k : String) : Except PyErr String :=
  match d.lookup k with
  | some v => Except.ok v
  | none => Except.error (PyErr.keyError k)

/-- ASCII codes of a string. -/
def str_bytes (s : String) : List Nat := s.data.map Char.toNat

/-- Python `base64.b64decode` (standard alphabet) raising on malformed input. -/
def py_b64decode (s : String) : Except PyErr (List Nat) :=
  match b64decode false (str_bytes s) with
  | some bs => Except.ok bs
  | none => Except.error PyErr.binasciiError

/-- External collaborators of `execute_trade`: the aggregator's `/swap`
response (network and JSON decoding folded into one outcome), the chain wire
format's deserializer, the signed transaction's serializer and the RPC
client's `send_raw_transaction`. -/
structure SwapEnv where
  swapResponse : List (String × String) → Except PyErr (List (String × String))
  deserialize : List Nat → Except PyErr SolTransaction
  serialize : SignedTransaction → List Nat
  sendRawTransaction : List Nat → Except PyErr String

/-- Embedding of `TradingManager.execute_trade`: optional anti-MEV delay
(which resolves the global name `random`), fetch the swap transaction from
the aggregator, read its `swapTransaction` field, base64-decode it,
deserialize, sign and broadcast.  There is no `try`/`except` anywhere in the
source function, so every stage failure propagates to the caller. -/
def execute_trade (env : SwapEnv) (quote : List (String × String))
    (wallet : Keypair) (anti_mev : Bool) : Except PyErr String := do
  if anti_mev then
    let _ ← py_name "random"
    pure ()
  let swap_tx ← env.swapResponse quote
  let b64s ← py_dict_get swap_tx "swapTransaction"
  let tx_bytes ← py_b64decode b64s
  let transaction ← env.deserialize tx_bytes
  let signed_tx := sign_transaction wallet transaction
  env.sendRawTransaction (env.serialize signed_tx)

/-! ## `SolanaTelegramBot` handlers (`app.py` lines 96–192) -/

/-- Embedding of `SolanaTelegramBot.create_wallet_command`: generate a
keypair, encrypt its secret key, build the `wallet_data` dict and reply that
the key has been "encrypted and stored securely".  The result is the
persistence store after the handler together with the reply text; the source
contains no write to any store. -/
def create_wallet_command (P : FernetParams) (ts iv : List Nat) (keypair : Keypair)
    (user_id : String) (store : RedisStore) : RedisStore × String :=
  let encrypted_private_key := encrypt_private_key P ts iv keypair.secret_key
  let _wallet_data : List (String × String) :=
    [("public_key", toString keypair.public_key),
     ("private_key", toString encrypted_private_key)]
  (store,
   "Wallet created!\nPublic Key: " ++ toString keypair.public_key ++
     "\n\nYour private key has been encrypted and stored securely.")

/-- Page argument as `list_tokens_command` computes it: the raw first command
argument (a string) when arguments are present, the integer 1 otherwise. -/
def PageArg := String ⊕ Int
deriving DecidableEq

/-- Arguments `list_tokens_command` passes to `get_tokens`: page from
`context.args[0]` (or 1) and sort key from `context.args[1]` (or `'value'`). -/
def list_tokens_args (args : List String) : PageArg × String :=
  (match args with
   | [] => Sum.inr 1
   | a :: _ => Sum.inl a,
   match args with
   | _ :: b :: _ => b
   | _ => "value")

/-- Python `int(s)`: optional sign then decimal digits, `ValueError` otherwise. -/
def py_int (s : String) : Except PyErr Int :=
  let digitsVal : List Char → Int := fun ds =>
    ((ds.foldl (fun a c => a * 10 + (c.toNat - 48)) 0 : Nat) : Int)
  match s.data with
  | [] => Except.error (PyErr.valueError s)
  | '-' :: ds =>
      if ds ≠ [] ∧ ds.all Char.isDigit then Except.ok (-(digitsVal ds))
      else Except.error (PyErr.valueError s)
  | ds =>
      if ds.all Char.isDigit then Except.ok (digitsVal ds)
      else Except.error (PyErr.valueError s)

/-- Embedding of `SolanaTelegramBot.handle_callback` on the already-split
callback data (`query.data.split('_')`): when the first part is `'list'`, it
parses `int(data[1])` and reads `data[2]`, then re-invokes
`list_tokens_command`, whose `get_tokens` call uses only the original command
arguments.  Returns the page and sort arguments actually used, `none` when
the callback is not a `list` callback. -/
def handle_callback (callback_parts : List String) (args : List String) :
    Except PyErr (Option (PageArg × String)) :=
  if callback_parts.head? = some "list" then do
    let d1 ← match callback_parts[1]? with
      | some s => Except.ok s
      | none => Except.error PyErr.indexError
    let _page ← py_int d1
    let _sort_by ← match callback_parts[2]? with
      | some s => Except.ok s
      | none => Except.error PyErr.indexError
    pure (some (list_tokens_args args))
  else pure none

/-! ## Concrete fixtures for counterexamples and witnesses -/

/-- Concrete quote object. -/
def q₀ : List (String × String) :=
  [("inputMint", "So11111111111111111111111111111111111111112"),
   ("outputMint", "EPjFWdd5AufqSSqeM2qN1xzybapC8G4wEGGkZwyTDt1v"),
   ("inAmount", "1000000")]

/-- Concrete wallet keypair (already decrypted, as `execute_trade` requires). -/
def w₀ : Keypair := ⟨[1, 2, 3], [4, 5, 6]⟩

/-- Concrete secret key used by the key-escape counterexample. -/
def sk₀ : List Nat := [11, 22, 33]

/-- Concrete secret key used by the tampered-token counterexample. -/
def sk₁ : List Nat := [7, 7]

/-- Environment where the aggregator's `/swap` request fails at the network
layer. -/
def env_net : SwapEnv :=
  { swapResponse := fun _ => Except.error (PyErr.clientError "connection reset")
    deserialize := fun bs => Except.ok ⟨0, bs⟩
    serialize := fun st => st.transaction.body
    sendRawTransaction := fun _ => Except.ok "sig" }

/-- Environment where every stage succeeds except the final broadcast, which
the RPC client rejects. -/
def env_rpc : SwapEnv :=
  { swapResponse := fun _ => Except.ok [("swapTransaction", "AAAA")]
    deserialize := fun bs => Except.ok ⟨0, bs⟩
    serialize := fun st => st.transaction.body
    sendRawTransaction := fun _ => Except.error (PyErr.rpcError "Transaction simulation failed") }

/-- Environment where the aggregator rejects the quote as expired: its JSON
error body has no `swapTransaction` field. -/
def env_expired : SwapEnv :=
  { swapResponse := fun _ => Except.ok [("error", "Quote expired"), ("code", "400")]
    deserialize := fun bs => Except.ok ⟨0, bs⟩
    serialize := fun st => st.transaction.body
    sendRawTransaction := fun _ => Except.ok "sig" }

/-- Environment whose swap transaction deserializes to a transaction anchored
to chain state 1000000000 slots old, and whose broadcast succeeds. -/
def env_stale : SwapEnv :=
  { swapResponse := fun _ => Except.ok [("swapTransaction", "AAAA")]
    deserialize := fun bs => Except.ok ⟨1000000000, bs⟩
    serialize := fun st => st.transaction.body
    sendRawTransaction := fun _ => Except.ok "sig1" }

/-- Concrete token store for the pagination witness: three tokens of one
wallet and one token of another. -/
def store₀ : RedisStore :=
  [("tokens:7:mintA", ⟨some "A", some 5, some "2024-01-01"⟩),
   ("tokens:7:mintB", ⟨some "B", some 9, some "2024-03-01"⟩),
   ("tokens:8:mintX", ⟨some "X", some 100, some "2024-02-01"⟩),
   ("tokens:7:mintC", ⟨some "C", some 7, some "2024-02-01"⟩)]

/-! ## Theorems -/

/-- C6: the claim says an anti-front-running delay drawn uniformly from the
configured range is applied on every invocation with the mode enabled.  The
source never imports `random`, so every invocation with `anti_mev=True` (the
default) raises `NameError` at the delay line instead of sleeping: the claim
is right about the intent (the code computes `random.uniform(0.1, 2.0)` under
the comment "Add random delay") and the code is wrong. -/
theorem execute_trade_anti_mev_name_error (env : SwapEnv)
    (quote : List (String × String)) (wallet : Keypair) :
    execute_trade env quote wallet true = Except.error (PyErr.nameError "random") := rfl

/-- C7: the claim says an encrypted key record is persisted at wallet creation
and read back on later trades.  The handler computes the encrypted record and
replies "encrypted and stored securely", but writes nothing: the persistence
store after the handler is exactly the store before it. -/
theorem create_wallet_command_persists_nothing (P : FernetParams)
    (ts iv : List Nat) (keypair : Keypair) (user_id : String) (store : RedisStore) :
    (create_wallet_command P ts iv keypair user_id store).1 = store := rfl

/-- C10: a `list` callback parses a page number and a sort key from its data,
but the parameters actually passed on to `get_tokens` are recomputed from the
original command arguments only; whenever the parsed page is a valid integer,
the outcome is `list_tokens_args args`, independent of the button pressed. -/
theorem handle_callback_ignores_parsed_args (p s : String) (args : List String)
    (n : Int) (h : py_int p = Except.ok n) :
    handle_callback ["list", p, s] args = Except.ok (some (list_tokens_args args)) := by
  simp [handle_callback, Bind.bind, Except.bind, Pure.pure, Except.pure, h]

/-- Witness for C10 at a concrete callback: pressing the "page 2, sort by
date" button still lists with the original command arguments `["7"]`. -/
theorem handle_callback_ignores_parsed_args_witness :
    py_int "2" = Except.ok 2 ∧
    handle_callback ["list", "2", "date"] ["7"] = Except.ok (some (list_tokens_args ["7"])) :=
  ⟨by decide, handle_callback_ignores_parsed_args "2" "date" ["7"] 2 (by decide)⟩

/-- C2 (amended): `execute_trade` contains no `try`/`except` and no
`TradeResult`; a failure of the aggregator swap request propagates to the
caller unchanged as a raised exception. -/
theorem execute_trade_propagates_swap_error (env : SwapEnv)
    (quote : List (String × String)) (wallet : Keypair) (e : PyErr)
    (h : env.swapResponse quote = Except.error e) :
    execute_trade env quote wallet false = Except.error e := by
  simp [execute_trade, Bind.bind, Except.bind, Pure.pure, Except.pure, h]

/-- Witness for the amended C2: a concrete network failure of the `/swap`
request escapes `execute_trade` as the same exception. -/
theorem execute_trade_propagates_swap_error_witness :
    env_net.swapResponse q₀ = Except.error (PyErr.clientError "connection reset") ∧
    execute_trade env_net q₀ w₀ false = Except.error (PyErr.clientError "connection reset") :=
  ⟨rfl, execute_trade_propagates_swap_error env_net q₀ w₀ _ rfl⟩

/-- Counterexample to C2 as stated: with every stage succeeding except the
final broadcast, the RPC client's exception crosses the executor boundary
uncaught — there is no `TradeResult.Failed` conversion. -/
theorem execute_trade_uncaught_broadcast_error :
    execute_trade env_rpc q₀ w₀ false =
      Except.error (PyErr.rpcError "Transaction simulation failed") := by decide

/-- C3 (amended): when the aggregator rejects the quote (e.g. as expired), its
response carries no `swapTransaction` field and `execute_trade` raises
`KeyError('swapTransaction')` instead of returning `Failed(QuoteExpired)`;
no decryption happens inside `execute_trade`, which already holds the
plaintext keypair as an argument. -/
theorem execute_trade_expired_quote_key_error (env : SwapEnv)
    (quote : List (String × String)) (wallet : Keypair)
    (obj : List (String × String))
    (hresp : env.swapResponse quote = Except.ok obj)
    (hmiss : obj.lookup "swapTransaction" = none) :
    execute_trade env quote wallet false = Except.error (PyErr.keyError "swapTransaction") := by
  simp [execute_trade, Bind.bind, Except.bind, Pure.pure, Except.pure, hresp, py_dict_get, hmiss]

/-- Witness for the amended C3 at the concrete expired-quote environment. -/
theorem execute_trade_expired_quote_key_error_witness :
    env_expired.swapResponse q₀ = Except.ok [("error", "Quote expired"), ("code", "400")] ∧
    ([("error", "Quote expired"), ("code", "400")] : List (String × String)).lookup "swapTransaction" = none ∧
    execute_trade env_expired q₀ w₀ false = Except.error (PyErr.keyError "swapTransaction") :=
  ⟨rfl, by decide,
   execute_trade_expired_quote_key_error env_expired q₀ w₀ _ rfl (by decide)⟩

/-- Counterexample to C3 as stated: on the expired-quote rejection the
executor's outcome is an uncaught `KeyError`, not `Failed(QuoteExpired)`. -/
theorem execute_trade_expired_quote_counterexample :
    execute_trade env_expired q₀ w₀ false = Except.error (PyErr.keyError "swapTransaction") ∧
    (∀ txid : String, execute_trade env_expired q₀ w₀ false ≠ Except.ok txid) := by
  have hh : execute_trade env_expired q₀ w₀ false =
      Except.error (PyErr.keyError "swapTransaction") := by decide
  refine ⟨hh, fun txid h => ?_⟩
  rw [hh] at h
  exact Except.noConfusion h

/-- C8 (amended): `execute_trade` performs no freshness check on the
deserialized transaction's chain-state anchor: for every transaction the
aggregator bytes deserialize to — whatever its anchor age — the executor
signs it and returns the broadcast outcome. -/
theorem execute_trade_signs_any_anchor_age (env : SwapEnv)
    (quote : List (String × String)) (wallet : Keypair)
    (obj : List (String × String)) (b64s : String) (bytes : List Nat)
    (t : SolTransaction)
    (hresp : env.swapResponse quote = Except.ok obj)
    (hfield : obj.lookup "swapTransaction" = some b64s)
    (hdec : py_b64decode b64s = Except.ok bytes)
    (hdes : env.deserialize bytes = Except.ok t) :
    execute_trade env quote wallet false =
      env.sendRawTransaction (env.serialize (sign_transaction wallet t)) := by
  simp [execute_trade, Bind.bind, Except.bind, Pure.pure, Except.pure, hresp, py_dict_get, hfield, hdec, hdes]

/-- Witness for the amended C8: a transaction anchored to state 1000000000
slots old is signed and broadcast. -/
theorem execute_trade_signs_any_anchor_age_witness :
    env_stale.deserialize [0, 0, 0] = Except.ok ⟨1000000000, [0, 0, 0]⟩ ∧
    execute_trade env_stale q₀ w₀ false =
      env_stale.sendRawTransaction
        (env_stale.serialize (sign_transaction w₀ ⟨1000000000, [0, 0, 0]⟩)) :=
  ⟨rfl, execute_trade_signs_any_anchor_age env_stale q₀ w₀
    [("swapTransaction", "AAAA")] "AAAA" [0, 0, 0] ⟨1000000000, [0, 0, 0]⟩
    rfl (by decide) (by decide) rfl⟩

/-- Counterexample to C8 as stated: a transaction anchored to state
1000000000 slots old — older than any configured bound — is signed and
broadcast successfully instead of aborting with `StaleTransaction`. -/
theorem execute_trade_stale_anchor_counterexample :
    execute_trade env_stale q₀ w₀ false = Except.ok "sig1" := by decide

/-- C9: for every page `p ≥ 1`, `get_tokens` returns at most 20 tokens,
namely the slice `[(p-1)*20, p*20)` of the wallet's tokens after sorting —
descending by numeric value for `sort_by = 'value'` (store order on ties, as
Python's stable sort keeps it), descending by the `purchase_date` string for
`sort_by = 'date'`, and in store order for any other `sort_by`. -/
theorem get_tokens_paginates (store : RedisStore) (wallet_id : String)
    (page : Nat) (sort_by : String) (h : 1 ≤ page) :
    (get_tokens store wallet_id page sort_by).length ≤ 20 ∧
    (sort_by = "value" →
      get_tokens store wallet_id page sort_by =
        ((List.insertionSort value_ge (wallet_tokens store wallet_id)).drop
          ((page - 1) * 20)).take 20 ∧
      (get_tokens store wallet_id page sort_by).Pairwise value_ge) ∧
    (sort_by = "date" →
      get_tokens store wallet_id page sort_by =
        ((List.insertionSort date_ge (wallet_tokens store wallet_id)).drop
          ((page - 1) * 20)).take 20 ∧
      (get_tokens store wallet_id page sort_by).Pairwise date_ge) ∧
    (sort_by ≠ "value" → sort_by ≠ "date" →
      get_tokens store wallet_id page sort_by =
        ((wallet_tokens store wallet_id).drop ((page - 1) * 20)).take 20) := by
  have hdt : ∀ l : List Token,
      (l.take ((page - 1) * 20 + 20)).drop ((page - 1) * 20) =
        (l.drop ((page - 1) * 20)).take 20 := by
    intro l
    rw [List.drop_take]
    congr 1
    omega
  have hsub : ∀ (l : List Token) (R : Token → Token → Prop),
      l.Pairwise R → ((l.drop ((page - 1) * 20)).take 20).Pairwise R := by
    intro l R hl
    exact List.Pairwise.sublist
      ((List.take_sublist _ _).trans (List.drop_sublist _ _)) hl
  refine ⟨?_, ?_, ?_, ?_⟩
  · simp only [get_tokens, hdt]
    exact List.length_take_le _ _
  · intro hv
    simp only [get_tokens, hv, if_pos rfl, hdt]
    exact ⟨rfl, hsub _ _ (List.sorted_insertionSort value_ge _)⟩
  · intro hd
    have hne : ("date" : String) ≠ "value" := by decide
    simp only [get_tokens, hd, if_neg hne, if_pos rfl, hdt]
    exact ⟨rfl, hsub _ _ (List.sorted_insertionSort date_ge _)⟩
  · intro h1 h2
    simp only [get_tokens, if_neg h1, if_neg h2, hdt]

/-- Witness for C9 at a concrete store: wallet 7 has three tokens; page 1
sorted by value returns them in descending value order, untouched by the
other wallet's token. -/
theorem get_tokens_paginates_witness :
    (1 ≤ 1 ∧
      get_tokens store₀ "7" 1 "value" =
        [⟨some "B", some 9, some "2024-03-01"⟩,
         ⟨some "C", some 7, some "2024-02-01"⟩,
         ⟨some "A", some 5, some "2024-01-01"⟩]) ∧
    (get_tokens store₀ "7" 1 "value").length ≤ 20 ∧
    get_tokens store₀ "7" 1 "value" =
      ((List.insertionSort value_ge (wallet_tokens store₀ "7")).drop 0).take 20 ∧
    (get_tokens store₀ "7" 1 "value").Pairwise value_ge := by
  have hmain := get_tokens_paginates store₀ "7" 1 "value" (by decide)
  have hv := hmain.2.1 rfl
  exact ⟨⟨by decide, by decide⟩, hmain.1, hv.1, hv.2⟩

/-! ## Lemmas about the base64 layer -/

theorem char_sextet_sextet_char (u : Bool) :
    ∀ s : Nat, s < 64 → char_sextet u (sextet_char u s) = some s := by
  cases u <;> decide

theorem sextet_char_ne_61 (u : Bool) : ∀ s : Nat, s < 64 → sextet_char u s ≠ 61 := by
  cases u <;> decide

theorem b64_keep_sextet_char_lt (u : Bool) :
    ∀ s : Nat, s < 64 → b64_keep u (sextet_char u s) = true := by
  cases u <;> decide

theorem b64_keep_sextet_char (u : Bool) (s : Nat) :
    b64_keep u (sextet_char u s) = true := by
  by_cases h : s < 64
  · exact b64_keep_sextet_char_lt u s h
  · have hs : sextet_char u s = if u then 95 else 47 := by
      unfold sextet_char
      rw [if_neg (by omega), if_neg (by omega), if_neg (by omega), if_neg (by omega)]
    rw [hs]
    cases u <;> decide

theorem b64_keep_61 (u : Bool) : b64_keep u 61 = true := by
  cases u <;> decide

theorem mem_b64encode_keep (u : Bool) :
    ∀ (l : List Nat) (c : Nat), c ∈ b64encode u l → b64_keep u c = true
  | a :: b :: d :: rest, c, hc => by
      simp only [b64encode, List.mem_cons] at hc
      rcases hc with rfl | rfl | rfl | rfl | hc
      · exact b64_keep_sextet_char u _
      · exact b64_keep_sextet_char u _
      · exact b64_keep_sextet_char u _
      · exact b64_keep_sextet_char u _
      · exact mem_b64encode_keep u rest c hc
  | [a], c, hc => by
      simp only [b64encode, List.mem_cons, List.not_mem_nil, or_false] at hc
      rcases hc with rfl | rfl | rfl | rfl
      · exact b64_keep_sextet_char u _
      · exact b64_keep_sextet_char u _
      · exact b64_keep_61 u
      · exact b64_keep_61 u
  | [a, b], c, hc => by
      simp only [b64encode, List.mem_cons, List.not_mem_nil, or_false] at hc
      rcases hc with rfl | rfl | rfl | rfl
      · exact b64_keep_sextet_char u _
      · exact b64_keep_sextet_char u _
      · exact b64_keep_sextet_char u _
      · exact b64_keep_61 u
  | [], c, hc => by simp [b64encode] at hc

theorem b64decode_strict_encode (u : Bool) :
    ∀ l : List Nat, (∀ x ∈ l, x < 256) → b64decode_strict u (b64encode u l) = some l
  | [], _ => rfl
  | [a], h => by
      have ha : a < 256 := h a (by simp)
      have e1 := char_sextet_sextet_char u (a / 4) (by omega)
      have e2 := char_sextet_sextet_char u (a % 4 * 16) (by omega)
      simp only [b64encode, b64decode_strict, e1, e2, if_pos rfl, and_self, if_true,
        Option.some.injEq, List.cons.injEq, and_true]
      omega
  | [a, b], h => by
      have ha : a < 256 := h a (by simp)
      have hb : b < 256 := h b (by simp)
      have e1 := char_sextet_sextet_char u (a / 4) (by omega)
      have e2 := char_sextet_sextet_char u (a % 4 * 16 + b / 16) (by omega)
      have e3 := char_sextet_sextet_char u (b % 16 * 4) (by omega)
      have n3 := sextet_char_ne_61 u (b % 16 * 4) (by omega)
      simp only [b64encode, b64decode_strict, e1, e2, e3, if_neg n3, if_pos rfl, if_true,
        Option.some.injEq, List.cons.injEq, and_true]
      omega
  | a :: b :: d :: rest, h => by
      have ha : a < 256 := h a (by simp)
      have hb : b < 256 := h b (by simp)
      have hd : d < 256 := h d (by simp)
      have e1 := char_sextet_sextet_char u (a / 4) (by omega)
      have e2 := char_sextet_sextet_char u (a % 4 * 16 + b / 16) (by omega)
      have e3 := char_sextet_sextet_char u (b % 16 * 4 + d / 64) (by omega)
      have e4 := char_sextet_sextet_char u (d % 64) (by omega)
      have n3 := sextet_char_ne_61 u (b % 16 * 4 + d / 64) (by omega)
      have n4 := sextet_char_ne_61 u (d % 64) (by omega)
      have ih := b64decode_strict_encode u rest (fun x hx => h x (by simp [hx]))
      simp only [b64encode, b64decode_strict, e1, e2, e3, e4, if_neg n3, if_neg n4, ih,
        Option.map_some', Option.some.injEq, List.cons.injEq, and_true]
      omega

theorem b64decode_encode (u : Bool) (l : List Nat) (h : ∀ x ∈ l, x < 256) :
    b64decode u (b64encode u l) = some l := by
  unfold b64decode
  rw [List.filter_eq_self.mpr (fun c hc => mem_b64encode_keep u l c hc),
    b64decode_strict_encode u l h]

/-! ## Lemmas about chunking, xor, CBC and PKCS7 -/

theorem chunk_fuel_flatten (n : Nat) :
    ∀ l : List Nat, l.length ≤ n → (chunk_fuel n l).flatten = l := by
  induction n with
  | zero =>
    intro l hl
    have : l = [] := List.eq_nil_of_length_eq_zero (by omega)
    subst this
    rfl
  | succ n ih =>
    intro l hl
    cases l with
    | nil => rfl
    | cons a t =>
      simp only [chunk_fuel, List.flatten_cons]
      rw [ih _ (by simp only [List.length_drop, List.length_cons] at hl ⊢; omega)]
      exact List.take_append_drop 16 (a :: t)

theorem chunk_fuel_block_length (n : Nat) :
    ∀ l : List Nat, l.length ≤ n → 16 ∣ l.length →
      ∀ b ∈ chunk_fuel n l, b.length = 16 := by
  induction n with
  | zero =>
    intro l hl _ b hb
    have : l = [] := List.eq_nil_of_length_eq_zero (by omega)
    subst this
    simp [chunk_fuel] at hb
  | succ n ih =>
    intro l hl hdvd b hb
    cases l with
    | nil => simp [chunk_fuel] at hb
    | cons a t =>
      have hlen : 16 ≤ (a :: t).length := by
        rcases hdvd with ⟨c, hc⟩
        simp only [List.length_cons] at hc ⊢
        omega
      simp only [chunk_fuel, List.mem_cons] at hb
      rcases hb with rfl | hb
      · rw [List.length_take]
        omega
      · refine ih _ ?_ ?_ b hb
        · simp only [List.length_drop, List.length_cons] at hl ⊢
          omega
        · rcases hdvd with ⟨c, hc⟩
          refine ⟨c - 1, ?_⟩
          simp only [List.length_drop] at hc ⊢
          omega

theorem chunk_fuel_block_mem (n : Nat) :
    ∀ (l : List Nat) (b : List Nat) (x : Nat),
      b ∈ chunk_fuel n l → x ∈ b → x ∈ l := by
  induction n with
  | zero =>
    intro l b x hb _
    cases l <;> simp [chunk_fuel] at hb
  | succ n ih =>
    intro l b x hb hx
    cases l with
    | nil => simp [chunk_fuel] at hb
    | cons a t =>
      simp only [chunk_fuel, List.mem_cons] at hb
      rcases hb with rfl | hb
      · exact List.take_subset 16 (a :: t) hx
      · exact List.drop_subset 16 (a :: t) (ih _ b x hb hx)

theorem chunk_fuel_flatten_inv (n : Nat) :
    ∀ bs : List (List Nat), (∀ b ∈ bs, b.length = 16) →
      bs.flatten.length ≤ n → chunk_fuel n bs.flatten = bs := by
  induction n with
  | zero =>
    intro bs hb hl
    cases bs with
    | nil => rfl
    | cons b t =>
      have := hb b (by simp)
      simp only [List.flatten_cons, List.length_append, this] at hl
      omega
  | succ n ih =>
    intro bs hb hl
    cases bs with
    | nil => rfl
    | cons b t =>
      have hb16 : b.length = 16 := hb b (by simp)
      cases b with
      | nil => simp at hb16
      | cons x xs =>
        have htake := @List.take_left' Nat (x :: xs) t.flatten 16 hb16
        have hdrop := @List.drop_left' Nat (x :: xs) t.flatten 16 hb16
        simp only [List.cons_append] at htake hdrop
        have hlt : t.flatten.length ≤ n := by
          simp only [List.flatten_cons, List.length_append, hb16] at hl
          omega
        simp only [List.flatten_cons, List.cons_append, chunk_fuel, List.append_eq]
        rw [htake, hdrop, ih t (fun c hcm => hb c (by simp [hcm])) hlt]

theorem pkcs7_pad_length_dvd (data : List Nat) : 16 ∣ (pkcs7_pad data).length := by
  simp only [pkcs7_pad, List.length_append, List.length_replicate]
  omega

theorem pkcs7_pad_lt (data : List Nat) (h : ∀ x ∈ data, x < 256) :
    ∀ x ∈ pkcs7_pad data, x < 256 := by
  intro x hx
  simp only [pkcs7_pad, List.mem_append, List.mem_replicate] at hx
  rcases hx with hx | ⟨_, rfl⟩
  · exact h x hx
  · omega

theorem pkcs7_unpad_pad (data : List Nat) : pkcs7_unpad (pkcs7_pad data) = some data := by
  obtain ⟨p, hp⟩ : ∃ p, 16 - data.length % 16 = p := ⟨_, rfl⟩
  have hpad : pkcs7_pad data = data ++ List.replicate p p := by
    rw [← hp]
    rfl
  have hp1 : 1 ≤ p := by omega
  have hp16 : p ≤ 16 := by omega
  have hlast : (data ++ List.replicate p p).getLast? = some p := by
    cases hq : p with
    | zero => omega
    | succ q =>
      rw [List.replicate_succ', ← List.append_assoc]
      exact List.getLast?_concat _
  have hlen : (data ++ List.replicate p p).length = data.length + p := by
    simp
  have hsub : data.length + p - p = data.length := by omega
  have hall : ((List.drop ((data ++ List.replicate p p).length - p)
      (data ++ List.replicate p p)).all fun x => decide (x = p)) = true := by
    rw [hlen, hsub, List.drop_left, List.all_eq_true]
    intro x hx
    rcases List.mem_replicate.mp hx with ⟨_, rfl⟩
    simp
  rw [hpad]
  unfold pkcs7_unpad
  rw [hlast]
  show (if 1 ≤ p ∧ p ≤ 16 ∧ p ≤ (data ++ List.replicate p p).length ∧
      ((List.drop ((data ++ List.replicate p p).length - p)
        (data ++ List.replicate p p)).all fun x => decide (x = p)) = true then
    some (List.take ((data ++ List.replicate p p).length - p)
      (data ++ List.replicate p p))
  else none) = some data
  rw [if_pos ⟨hp1, hp16, by rw [hlen]; omega, hall⟩]
  rw [hlen, hsub]
  exact congrArg some (List.take_left data _)

theorem xor_bytes_cancel :
    ∀ a b : List Nat, a.length = b.length → xor_bytes a (xor_bytes a b) = b
  | [], [], _ => rfl
  | [], _ :: _, h => by simp at h
  | _ :: _, [], h => by simp at h
  | x :: xs, y :: ys, h => by
      simp only [xor_bytes, List.zipWith_cons_cons]
      refine congrArg₂ List.cons ?_ ?_
      · rw [← Nat.xor_assoc, Nat.xor_self, Nat.zero_xor]
      · exact xor_bytes_cancel xs ys (by simpa using h)

theorem xor_bytes_length (a b : List Nat) :
    (xor_bytes a b).length = min a.length b.length := by
  simp [xor_bytes]

theorem xor_bytes_lt :
    ∀ a b : List Nat, (∀ x ∈ a, x < 256) → (∀ x ∈ b, x < 256) →
      ∀ x ∈ xor_bytes a b, x < 256
  | [], _, _, _ => by simp [xor_bytes]
  | _ :: _, [], _, _ => by simp [xor_bytes]
  | x :: xs, y :: ys, ha, hb => by
      simp only [xor_bytes, List.zipWith_cons_cons, List.mem_cons]
      rintro z (rfl | hz)
      · have h256 : (256 : Nat) = 2 ^ 8 := by norm_num
        rw [h256]
        exact Nat.xor_lt_two_pow (by rw [← h256]; exact ha x (by simp))
          (by rw [← h256]; exact hb y (by simp))
      · exact xor_bytes_lt xs ys (fun w hw => ha w (by simp [hw]))
          (fun w hw => hb w (by simp [hw])) z hz

theorem cbc_encrypt_length (E : List Nat → List Nat) :
    ∀ (ps : List (List Nat)) (iv : List Nat), (cbc_encrypt E iv ps).length = ps.length := by
  intro ps
  induction ps with
  | nil => intro iv; rfl
  | cons p pt ih => intro iv; simp only [cbc_encrypt, List.length_cons, ih]

theorem cbc_decrypt_encrypt (E D : List Nat → List Nat)
    (hED : ∀ b : List Nat, b.length = 16 → D (E b) = b)
    (hE16 : ∀ b : List Nat, b.length = 16 → (E b).length = 16) :
    ∀ (ps : List (List Nat)) (iv : List Nat), iv.length = 16 →
      (∀ p ∈ ps, p.length = 16) →
      cbc_decrypt D iv (cbc_encrypt E iv ps) = ps := by
  intro ps
  induction ps with
  | nil => intro iv _ _; rfl
  | cons p pt ih =>
    intro iv hiv hp
    have hplen : p.length = 16 := hp p (by simp)
    have hx : (xor_bytes iv p).length = 16 := by
      rw [xor_bytes_length, hiv, hplen]
      simp
    simp only [cbc_encrypt, cbc_decrypt]
    rw [hED _ hx, xor_bytes_cancel iv p (by rw [hiv, hplen]),
      ih (E (xor_bytes iv p)) (hE16 _ hx) (fun q hq => hp q (by simp [hq]))]

theorem cbc_encrypt_blocks (E : List Nat → List Nat)
    (hE16 : ∀ b : List Nat, b.length = 16 → (E b).length = 16)
    (hE256 : ∀ b : List Nat, b.length = 16 → (∀ x ∈ b, x < 256) → ∀ x ∈ E b, x < 256) :
    ∀ (ps : List (List Nat)) (iv : List Nat), iv.length = 16 → (∀ x ∈ iv, x < 256) →
      (∀ p ∈ ps, p.length = 16 ∧ ∀ x ∈ p, x < 256) →
      ∀ b ∈ cbc_encrypt E iv ps, b.length = 16 ∧ ∀ x ∈ b, x < 256 := by
  intro ps
  induction ps with
  | nil => intro iv _ _ _ b hb; simp [cbc_encrypt] at hb
  | cons p pt ih =>
    intro iv hiv hiv256 hp b hb
    obtain ⟨hplen, hp256⟩ := hp p (by simp)
    have hx16 : (xor_bytes iv p).length = 16 := by
      rw [xor_bytes_length, hiv, hplen]
      simp
    have hx256 : ∀ x ∈ xor_bytes iv p, x < 256 := xor_bytes_lt iv p hiv256 hp256
    have hc16 : (E (xor_bytes iv p)).length = 16 := hE16 _ hx16
    have hc256 : ∀ x ∈ E (xor_bytes iv p), x < 256 := hE256 _ hx16 hx256
    simp only [cbc_encrypt, List.mem_cons] at hb
    rcases hb with rfl | hb
    · exact ⟨hc16, hc256⟩
    · exact ih (E (xor_bytes iv p)) hc16 hc256 (fun q hq => hp q (by simp [hq])) b hb

theorem flatten_length_16 :
    ∀ bs : List (List Nat), (∀ b ∈ bs, b.length = 16) →
      bs.flatten.length = 16 * bs.length := by
  intro bs
  induction bs with
  | nil => intro _; rfl
  | cons b t ih =>
    intro h
    simp only [List.flatten_cons, List.length_append, h b (by simp),
      ih (fun c hc => h c (by simp [hc])), List.length_cons]
    ring

theorem fernet_decrypt_eval (P : FernetParams) (tokenAscii rest : List Nat)
    (hdec : b64decode true tokenAscii = some (128 :: rest))
    (h56 : 56 ≤ rest.length)
    (htag : ((128 : Nat) :: rest).drop (((128 : Nat) :: rest).length - 32) =
      P.hmac (((128 : Nat) :: rest).take (((128 : Nat) :: rest).length - 32)))
    (hct : ((rest.drop 24).take (rest.length - 56)).length % 16 = 0) :
    fernet_decrypt P tokenAscii =
      pkcs7_unpad (cbc_decrypt P.aesDec ((rest.drop 8).take 16)
        (chunk16 ((rest.drop 24).take (rest.length - 56)))).flatten := by
  unfold fernet_decrypt
  rw [hdec]
  simp only [h56, htag, hct, if_true, eq_self_iff_true, ite_true]

theorem fernet_decrypt_encrypt (P : FernetParams) (hP : GoodParams P)
    (ts iv k : List Nat) (hts8 : ts.length = 8) (hts256 : ∀ x ∈ ts, x < 256)
    (hiv16 : iv.length = 16) (hiv256 : ∀ x ∈ iv, x < 256)
    (hk256 : ∀ x ∈ k, x < 256) :
    fernet_decrypt P (fernet_encrypt P ts iv k) = some k := by
  obtain ⟨hED, hE16, hE256, hmac32, hmac256⟩ := hP
  have hpad_dvd : 16 ∣ (pkcs7_pad k).length := pkcs7_pad_length_dvd k
  have hpad256 : ∀ x ∈ pkcs7_pad k, x < 256 := pkcs7_pad_lt k hk256
  have hblocks_len : ∀ b ∈ chunk16 (pkcs7_pad k), b.length = 16 :=
    chunk_fuel_block_length _ _ le_rfl hpad_dvd
  have hblocks : ∀ b ∈ chunk16 (pkcs7_pad k), b.length = 16 ∧ ∀ x ∈ b, x < 256 :=
    fun b hb => ⟨hblocks_len b hb,
      fun x hx => hpad256 x (chunk_fuel_block_mem _ _ b x hb hx)⟩
  have hcts : ∀ b ∈ cbc_encrypt P.aesEnc iv (chunk16 (pkcs7_pad k)),
      b.length = 16 ∧ ∀ x ∈ b, x < 256 :=
    cbc_encrypt_blocks P.aesEnc hE16 hE256 _ iv hiv16 hiv256 hblocks
  obtain ⟨ct, hct⟩ : ∃ ct, (cbc_encrypt P.aesEnc iv (chunk16 (pkcs7_pad k))).flatten = ct :=
    ⟨_, rfl⟩
  have hchunk_pad : (pkcs7_pad k).length = 16 * (chunk16 (pkcs7_pad k)).length := by
    conv_lhs => rw [← chunk_fuel_flatten (pkcs7_pad k).length (pkcs7_pad k) le_rfl]
    exact flatten_length_16 _ hblocks_len
  have hct_len : ct.length = (pkcs7_pad k).length := by
    rw [← hct, flatten_length_16 _ (fun b hb => (hcts b hb).1), cbc_encrypt_length]
    omega
  have hct256 : ∀ x ∈ ct, x < 256 := by
    rw [← hct]
    intro x hx
    rw [List.mem_flatten] at hx
    obtain ⟨b, hbmem, hxb⟩ := hx
    exact (hcts b hbmem).2 x hxb
  have hchunkct : chunk16 ct = cbc_encrypt P.aesEnc iv (chunk16 (pkcs7_pad k)) := by
    rw [← hct]
    exact chunk_fuel_flatten_inv _ _ (fun b hb => (hcts b hb).1) le_rfl
  obtain ⟨mac, hmac⟩ : ∃ mac, P.hmac (128 :: (ts ++ iv ++ ct)) = mac := ⟨_, rfl⟩
  have hmac_len : mac.length = 32 := by
    rw [← hmac]
    exact hmac32 _
  have hmac256v : ∀ x ∈ mac, x < 256 := by
    rw [← hmac]
    exact hmac256 _
  have htok : fernet_token P ts iv k = 128 :: ((ts ++ iv ++ ct) ++ mac) := by
    simp only [fernet_token, hct, hmac, List.cons_append]
  have htok256 : ∀ x ∈ fernet_token P ts iv k, x < 256 := by
    rw [htok]
    intro x hx
    simp only [List.mem_cons, List.mem_append] at hx
    rcases hx with rfl | ⟨⟨hx | hx⟩ | hx⟩ | hx
    · omega
    · exact hts256 x hx
    · exact hiv256 x hx
    · exact hct256 x hx
    · exact hmac256v x hx
  obtain ⟨rest, hrest⟩ : ∃ rest, (ts ++ iv ++ ct) ++ mac = rest := ⟨_, rfl⟩
  have hrest_len : rest.length = 56 + ct.length := by
    rw [← hrest]
    simp only [List.length_append, hts8, hiv16, hmac_len]
    omega
  have hdec : b64decode true (fernet_encrypt P ts iv k) = some (128 :: rest) := by
    unfold fernet_encrypt
    rw [b64decode_encode true _ htok256, htok, hrest]
  have hbody_take : ((128 : Nat) :: rest).take (((128 : Nat) :: rest).length - 32) =
      128 :: (ts ++ iv ++ ct) := by
    rw [← hrest]
    have h1 : ((128 : Nat) :: ((ts ++ iv ++ ct) ++ mac)) =
        (128 :: (ts ++ iv ++ ct)) ++ mac := by
      simp [List.cons_append]
    rw [h1]
    have h2 : ((128 :: (ts ++ iv ++ ct)) ++ mac).length - 32 =
        ((128 : Nat) :: (ts ++ iv ++ ct)).length := by
      simp only [List.length_append, List.length_cons, hmac_len]
      omega
    rw [h2]
    exact List.take_left _ mac
  have htag_drop : ((128 : Nat) :: rest).drop (((128 : Nat) :: rest).length - 32) = mac := by
    rw [← hrest]
    have h1 : ((128 : Nat) :: ((ts ++ iv ++ ct) ++ mac)) =
        (128 :: (ts ++ iv ++ ct)) ++ mac := by
      simp [List.cons_append]
    rw [h1]
    have h2 : ((128 :: (ts ++ iv ++ ct)) ++ mac).length - 32 =
        ((128 : Nat) :: (ts ++ iv ++ ct)).length := by
      simp only [List.length_append, List.length_cons, hmac_len]
      omega
    rw [h2]
    exact List.drop_left _ mac
  have htag : ((128 : Nat) :: rest).drop (((128 : Nat) :: rest).length - 32) =
      P.hmac (((128 : Nat) :: rest).take (((128 : Nat) :: rest).length - 32)) := by
    rw [htag_drop, hbody_take, hmac]
  have hiv_part : (rest.drop 8).take 16 = iv := by
    rw [← hrest]
    simp only [List.append_assoc]
    rw [List.drop_left' hts8]
    exact List.take_left' hiv16
  have hct_part : (rest.drop 24).take (rest.length - 56) = ct := by
    rw [← hrest]
    simp only [List.append_assoc]
    have h24 : (24 : Nat) = 8 + 16 := rfl
    rw [h24, ← List.drop_drop, List.drop_left' hts8, List.drop_left' hiv16]
    have hlen2 : (ts ++ (iv ++ (ct ++ mac))).length - 56 = ct.length := by
      simp only [List.length_append, hts8, hiv16, hmac_len]
      omega
    rw [hlen2]
    exact List.take_left ct mac
  have h56 : 56 ≤ rest.length := by omega
  have hct_mod : ((rest.drop 24).take (rest.length - 56)).length % 16 = 0 := by
    rw [hct_part]
    omega
  rw [fernet_decrypt_eval P _ rest hdec h56 htag hct_mod, hct_part, hiv_part, hchunkct,
    cbc_decrypt_encrypt P.aesEnc P.aesDec hED hE16 _ iv hiv16 hblocks_len,
    chunk16, chunk_fuel_flatten _ _ le_rfl, pkcs7_unpad_pad]

theorem goodParams_P0 : GoodParams P₀ := by
  refine ⟨fun b _ => rfl, fun b hb => hb, fun b _ h => h, fun m => ?_, fun m x hx => ?_⟩
  · simp [P₀]
  · simp only [P₀, List.mem_replicate] at hx
    omega

/-- C4: for every secret key and every valid master key (modelled as Fernet
primitives satisfying the block-cipher and MAC contract), decrypting the
encryption of the key returns exactly the key, for every encryption-time
timestamp and IV. -/
theorem decrypt_encrypt_roundtrip (P : FernetParams) (hP : GoodParams P)
    (ts iv k : List Nat) (hts8 : ts.length = 8) (hts256 : ∀ x ∈ ts, x < 256)
    (hiv16 : iv.length = 16) (hiv256 : ∀ x ∈ iv, x < 256)
    (hk256 : ∀ x ∈ k, x < 256) :
    decrypt_private_key P (encrypt_private_key P ts iv k) = some k :=
  fernet_decrypt_encrypt P hP ts iv k hts8 hts256 hiv16 hiv256 hk256

/-- Witness for C4 at concrete primitives, timestamp, IV and key. -/
theorem decrypt_encrypt_roundtrip_witness :
    GoodParams P₀ ∧ ts₀.length = 8 ∧ iv₀.length = 16 ∧
    decrypt_private_key P₀ (encrypt_private_key P₀ ts₀ iv₀ [1, 2, 3]) = some [1, 2, 3] :=
  ⟨goodParams_P0, by decide, by decide,
   decrypt_encrypt_roundtrip P₀ goodParams_P0 ts₀ iv₀ [1, 2, 3]
     (by decide) (by decide) (by decide) (by decide) (by decide)⟩

/-- C5 (amended): `decrypt` returns a plaintext only for tokens that
urlsafe-base64-decode to bytes with version `0x80`, sufficient length and an
authentication tag that matches the keyed MAC of the token body; every other
ciphertext fails with `CryptoError` (`InvalidToken`).  Distinct token strings
decoding to the same authenticated bytes are however accepted. -/
theorem fernet_decrypt_authenticated (P : FernetParams) (tok k : List Nat)
    (h : fernet_decrypt P tok = some k) :
    ∃ rest : List Nat, b64decode true tok = some (128 :: rest) ∧
      56 ≤ rest.length ∧
      ((128 : Nat) :: rest).drop (((128 : Nat) :: rest).length - 32) =
        P.hmac (((128 : Nat) :: rest).take (((128 : Nat) :: rest).length - 32)) := by
  unfold fernet_decrypt at h
  cases hdec : b64decode true tok with
  | none =>
    rw [hdec] at h
    exact absurd h (by simp)
  | some dat =>
    rw [hdec] at h
    cases dat with
    | nil => simp at h
    | cons v rest =>
      simp only at h
      split_ifs at h with h1 h2 h3 h4
      subst h1
      exact ⟨rest, rfl, h2, h3⟩

/-- Witness for the amended C5: a concretely decryptable token satisfies the
version and authentication conditions. -/
theorem fernet_decrypt_authenticated_witness :
    ∃ rest : List Nat,
      b64decode true (fernet_encrypt P₀ ts₀ iv₀ [1, 2, 3]) = some (128 :: rest) ∧
      56 ≤ rest.length ∧
      ((128 : Nat) :: rest).drop (((128 : Nat) :: rest).length - 32) =
        P₀.hmac (((128 : Nat) :: rest).take (((128 : Nat) :: rest).length - 32)) :=
  fernet_decrypt_authenticated P₀ (fernet_encrypt P₀ ts₀ iv₀ [1, 2, 3]) [1, 2, 3]
    (by decide)

/-- Counterexample to C5 as stated: prepending a newline byte to a valid
token yields a ciphertext that is not the encryption of anything (no
`fernet_encrypt` output ever contains byte 10), yet `decrypt` accepts it and
returns the original plaintext, because Python's base64 decoder silently
discards characters outside the alphabet. -/
theorem fernet_decrypt_tampered_accepts :
    fernet_decrypt P₀ (10 :: fernet_encrypt P₀ ts₀ iv₀ sk₁) = some sk₁ ∧
    ∀ (P : FernetParams) (ts iv k : List Nat),
      10 :: fernet_encrypt P₀ ts₀ iv₀ sk₁ ≠ fernet_encrypt P ts iv k := by
  refine ⟨by decide, fun P ts iv k h => ?_⟩
  have h10 : (10 : Nat) ∈ b64encode true (fernet_token P ts iv k) := by
    rw [← fernet_encrypt]
    exact h ▸ List.mem_cons_self 10 _
  have hkeep := mem_b64encode_keep true _ 10 h10
  exact absurd hkeep (by decide)

/-- C1 (amended): there is no scoped key acquisition in the code;
`SecurityManager.decrypt_private_key` hands the plaintext secret key to its
caller as an ordinary return value (no zeroing, no closure scope), and
`execute_trade` takes an already-decrypted plaintext keypair as a parameter. -/
theorem decrypt_returns_plaintext_secret :
    ∃ (P : FernetParams) (ts iv sk : List Nat), sk ≠ [] ∧
      decrypt_private_key P (encrypt_private_key P ts iv sk) = some sk :=
  ⟨P₀, ts₀, iv₀, sk₀, by decide, by decide⟩

/-- Counterexample to C1 as stated: the public operation
`decrypt_private_key` applied to a stored encrypted key returns the plaintext
secret key itself — plaintext key material escapes as a return value, and no
`withDecryptedKey` scope exists anywhere in the code. -/
theorem decrypt_private_key_escapes :
    decrypt_private_key P₀ (encrypt_private_key P₀ ts₀ iv₀ sk₀) = some sk₀ := by decide

end App
